import Mathlib

/-!
Shallow embedding of the proto2openapi generator (src/openapi_gen.rs together
with the descriptor acquisition interface of src/prost_light.rs).

Strings are modeled at the character-list level (`String` in this Lean version
is a structure over `List Char`, so everything reduces in the kernel).  The
Rust regular expressions of openapi_gen.rs are embedded as explicit character
scanners with the same leftmost-match, greedy semantics; the Unicode classes
`\s` and `\w` are modeled by their ASCII parts (all inputs of interest are
ASCII comment lines).

Rust `HashMap` is modeled by an association list: only its content (lookup /
key set) is meaningful, since Rust's HashMap iteration order is unspecified
and randomly seeded per run.  Where the source iterates a HashMap, the model
fixes the first-insertion order as one admissible enumeration and, where a
claim depends on the enumeration, quantifies over permutations explicitly.
`IndexMap` (insertion ordered) is modeled by the same association list, whose
order is then exact.
-/

/-- Association-list lookup (first matching key), the content view of a
Rust `HashMap` / `IndexMap` lookup. -/
def alookup {α β : Type} [DecidableEq α] (m : List (α × β)) (k : α) : Option β :=
  (m.find? (fun e => e.1 = k)).map (·.2)

/-- Map insert: replace the value at an existing key (keeping its position),
otherwise append.  This is exactly `IndexMap::insert`; for `HashMap::insert`
it is used as the canonical content representation. -/
def idxInsert {α β : Type} [DecidableEq α] (m : List (α × β)) (k : α) (v : β) :
    List (α × β) :=
  if m.any (fun e => e.1 = k) then m.map (fun e => if e.1 = k then (k, v) else e)
  else m ++ [(k, v)]

/-- `Extend`ing a map with the entries of another (`IndexMap::extend` /
`HashMap::extend`): sequential inserts. -/
def idxExtend {α β : Type} [DecidableEq α] (a b : List (α × β)) : List (α × β) :=
  b.foldl (fun acc e => idxInsert acc e.1 e.2) a

/-! ## Character classes (ASCII parts of the regex classes) -/

/-- ASCII part of the regex class `\s`. -/
def isSpaceChar (c : Char) : Bool :=
  c = ' ' || c = '\t' || c = '\n' || c = '\x0b' || c = '\x0c' || c = '\r'

/-- ASCII part of the regex class `\w` ( `[0-9A-Za-z_]` ). -/
def isWordChar (c : Char) : Bool :=
  c.isAlphanum || c = '_'

/-- Character class `[a-zA-Z0-9, ]` of TAG_RE. -/
def isTagChar (c : Char) : Bool :=
  c.isAlphanum || c = ',' || c = ' '

/-- `str::split(sep)` of Rust on a character separator. -/
def splitChar (sep : Char) : List Char → List (List Char)
  | [] => [[]]
  | c :: cs =>
    let r := splitChar sep cs
    if c = sep then [] :: r
    else
      match r with
      | h :: t => (c :: h) :: t
      | [] => [[c]]

/-- `str::trim` (ASCII whitespace). -/
def trimSpaces (cs : List Char) : List Char :=
  ((cs.dropWhile isSpaceChar).reverse.dropWhile isSpaceChar).reverse

/-- `str::lines` of Rust: split on `\n`, drop a trailing empty piece, strip a
trailing `\r` from each line. -/
def rustLines (s : String) : List String :=
  let parts := splitChar '\n' s.data
  let parts := if parts.getLast? = some [] then parts.dropLast else parts
  parts.map (fun p => String.mk (if p.getLast? = some '\r' then p.dropLast else p))

/-- `s.split('.').last().unwrap()` — the short name of a (possibly
dot-qualified) proto type name. -/
def shortName (s : String) : String :=
  String.mk ((splitChar '.' s.data).getLastD [])

/-! ## METHOD_RE: `^\s*(GET|PUT|POST|DELETE)`

The source takes the whole match (leading whitespace plus the verb) and trims
it, so the extracted method is exactly the verb token. -/

def httpVerbs : List String := ["GET", "PUT", "POST", "DELETE"]

/-- Anchored verb match of METHOD_RE (after trimming, as the source does). -/
def matchVerb (cs : List Char) : Option String :=
  httpVerbs.find? (fun v => v.data.isPrefixOf (cs.dropWhile isSpaceChar))

/-! ## PARAM_RE: `\{(?P<param>\w+):(?P<param_type>\w+)\}`

`matchParamAt` matches one placeholder at the head of the input;
`scanTokens` performs the leftmost, non-overlapping scan that both
`captures_iter` (parameter extraction) and `replace_all` (path rewriting)
perform over the same pattern. -/

def matchParamAt : List Char → Option (String × String × List Char)
  | '{' :: cs =>
    if cs.takeWhile isWordChar = [] then none
    else
      match cs.dropWhile isWordChar with
      | ':' :: r2 =>
        if r2.takeWhile isWordChar = [] then none
        else
          match r2.dropWhile isWordChar with
          | '}' :: r4 =>
            some (String.mk (cs.takeWhile isWordChar), String.mk (r2.takeWhile isWordChar), r4)
          | _ => none
      | _ => none
  | _ => none

theorem length_dropWhile_le {p : Char → Bool} (l : List Char) :
    (l.dropWhile p).length ≤ l.length := by
  induction l with
  | nil => simp [List.dropWhile]
  | cons c cs ih =>
    by_cases h : p c
    · simp [List.dropWhile, h]; omega
    · simp [List.dropWhile, h]

theorem matchParamAt_length {cs : List Char} {n t : String} {rest : List Char}
    (h : matchParamAt cs = some (n, t, rest)) : rest.length < cs.length := by
  unfold matchParamAt at h
  split at h
  case h_2 => exact absurd h (by simp)
  case h_1 cs' =>
    have h1 : (cs'.dropWhile isWordChar).length ≤ cs'.length := length_dropWhile_le _
    split at h
    case isTrue => exact absurd h (by simp)
    case isFalse =>
      split at h
      case h_2 => exact absurd h (by simp)
      case h_1 r2 heq =>
        have h2 : (r2.dropWhile isWordChar).length ≤ r2.length := length_dropWhile_le _
        split at h
        case isTrue => exact absurd h (by simp)
        case isFalse =>
          split at h
          case h_2 => exact absurd h (by simp)
          case h_1 =>
            rename_i r4 heq2
            cases h
            rw [heq] at h1; simp at h1
            rw [heq2] at h2; simp at h2
            simp; omega

/-- Token stream of one leftmost, non-overlapping PARAM_RE scan: placeholders
(as name/type pairs) interleaved with the untouched characters.  The `fuel`
argument (always called with fuel = input length, which each step strictly
consumes) makes the recursion structural so that it reduces in the kernel. -/
def scanTokensF : Nat → List Char → List ((String × String) ⊕ Char)
  | 0, _ => []
  | _ + 1, [] => []
  | fuel + 1, c :: cs =>
    match matchParamAt (c :: cs) with
    | some (n, t, rest) => .inl (n, t) :: scanTokensF fuel rest
    | none => .inr c :: scanTokensF fuel cs

def scanTokens (cs : List Char) : List ((String × String) ⊕ Char) :=
  scanTokensF cs.length cs

/-- All `(name, type)` captures of PARAM_RE over the input, in match order
(`captures_iter`). -/
def scanParams (cs : List Char) : List (String × String) :=
  (scanTokens cs).filterMap (fun t => match t with | .inl p => some p | .inr _ => none)

/-- Rebuild of `PARAM_RE.replace_all(path, "{$1}")` from the token stream:
each placeholder is rewritten to `{name}`. -/
def replaceParamsTok : List ((String × String) ⊕ Char) → List Char
  | [] => []
  | .inl p :: ts => '{' :: (p.1.data ++ '}' :: replaceParamsTok ts)
  | .inr c :: ts => c :: replaceParamsTok ts

/-- `path_to_openapi_path` of the source:
`PARAM_RE.replace_all(path, "{$1}").to_string()`. -/
def path_to_openapi_path (s : String) : String :=
  String.mk (replaceParamsTok (scanTokens s.data))

/-! ## PATH_RE: `(?:/(?:(?:\w+)|(?:\{\w+:\w+\})))+`

A match is one or more `/segment` components, each segment a (maximal) word
run or a full `{word:word}` placeholder; the first (leftmost) match of the
line is taken, greedily extended. -/

/-- One segment body after a `/`: the regex alternation tries `\w+` first
(which cannot start at `{`), then the placeholder form; returns the matched
text and the remaining input. -/
def segBody (cs : List Char) : Option (List Char × List Char) :=
  match cs with
  | '{' :: _ =>
    (matchParamAt cs).map
      (fun x => ('{' :: (x.1.data ++ ':' :: (x.2.1.data ++ ['}'])), x.2.2))
  | _ =>
    if cs.takeWhile isWordChar = [] then none
    else some (cs.takeWhile isWordChar, cs.dropWhile isWordChar)

/-- Greedy `(/segment)+` match anchored at the head of the input; the fuel
(input length, strictly consumed) makes the recursion structural. -/
def matchSegsF : Nat → List Char → Option (List Char × List Char)
  | 0, _ => none
  | _ + 1, [] => none
  | fuel + 1, '/' :: cs =>
    match segBody cs with
    | none => none
    | some (seg, rest) =>
      match matchSegsF fuel rest with
      | some (more, rest2) => some ('/' :: (seg ++ more), rest2)
      | none => some ('/' :: seg, rest)
  | _ + 1, _ => none

def matchSegsAt (cs : List Char) : Option (List Char × List Char) :=
  matchSegsF cs.length cs

/-- Leftmost PATH_RE match of the line (`PATH_RE.captures(value)`, whole
match). -/
def pathSearch : List Char → Option String
  | [] => none
  | c :: cs =>
    match matchSegsAt (c :: cs) with
    | some x => some (String.mk x.1)
    | none => pathSearch cs

/-! ## BODY_RE: `(\+|-) BODY` -/

/-- Leftmost BODY_RE match: the captured sign character. -/
def bodySearch : List Char → Option Char
  | [] => none
  | c :: cs =>
    if (c = '+' || c = '-') && " BODY".data.isPrefixOf cs then some c
    else bodySearch cs

/-- The body-inclusion flag: `+` forces a body, `-` suppresses it, absence of
the marker defaults to `true`. -/
def includeBodyOf (cs : List Char) : Bool :=
  match bodySearch cs with
  | some c => c = '+'
  | none => true

/-! ## TAG_RE: `\[([a-zA-Z0-9, ]+)\]` -/

/-- Leftmost TAG_RE match: the captured group (the characters between the
brackets). -/
def tagSearch : List Char → Option (List Char)
  | [] => none
  | '[' :: cs =>
    if cs.takeWhile isTagChar ≠ [] ∧ (cs.dropWhile isTagChar).head? = some ']' then
      some (cs.takeWhile isTagChar)
    else tagSearch cs
  | _ :: cs => tagSearch cs

/-- The tag list: the first bracketed group split on commas, each tag
trimmed; empty when no group matches. -/
def tagsOf (cs : List Char) : List String :=
  match tagSearch cs with
  | none => []
  | some w => (splitChar ',' w).map (fun t => String.mk (trimSpaces t))

/-! ## OpenAPIPathInfo and its TryFrom<&String> conversion -/

/-- Path information of one route comment line (`pub struct
OpenAPIPathInfo`).  The Rust `parameters: HashMap<String, String>` is
modeled as its association-list content. -/
structure OpenAPIPathInfo where
  path : String
  method : String
  parameters : List (String × String)
  include_body : Bool
  tags : List String
deriving DecidableEq, Repr

/-- The parameter map built by
`PARAM_RE.captures_iter(value).collect::<HashMap<_,_>>()`:
sequential inserts, a later capture of the same name overwriting the
earlier one. -/
def buildParamMap (ps : List (String × String)) : List (String × String) :=
  ps.foldl (fun acc p => idxInsert acc p.1 p.2) []

/-- `impl TryFrom<&String> for OpenAPIPathInfo`: a line is a route iff it has
an anchored verb and a path expression; parameters, body flag and tags are
extracted from the whole line. -/
def OpenAPIPathInfo.tryFrom (value : String) : Except Unit OpenAPIPathInfo :=
  match matchVerb value.data with
  | none => .error ()
  | some verb =>
    match pathSearch value.data with
    | none => .error ()
    | some path =>
      .ok { path := path
            method := verb
            parameters := buildParamMap (scanParams value.data)
            include_body := includeBodyOf value.data
            tags := tagsOf value.data }

instance {ε α : Type} [DecidableEq ε] [DecidableEq α] : DecidableEq (Except ε α) := fun a b =>
  match a, b with
  | .error e, .error e' =>
    if h : e = e' then .isTrue (by rw [h]) else .isFalse (by simp [h])
  | .ok x, .ok y =>
    if h : x = y then .isTrue (by rw [h]) else .isFalse (by simp [h])
  | .error _, .ok _ => .isFalse (by simp)
  | .ok _, .error _ => .isFalse (by simp)

/-! ## Proto descriptor model (the prost_types fields the generator reads)

Descriptor `name` fields are modeled as plain strings (the prost accessors
default an absent name to `""`); `MethodDescriptorProto` keeps its `Option`s
because the source unwraps them (claim C5).  Full i32 values (`oneof_index`,
recursion depth, location paths) are modeled as `Int`. -/

inductive FieldLabel where
  | optional
  | required
  | repeated
deriving DecidableEq, Repr

/-- The wire-type tag `field_descriptor_proto::Type`; `other` stands for all
remaining proto type tags (bytes, message, enum, fixed…), which the
generator's match sends to its `_` arm. -/
inductive FieldType where
  | double
  | float
  | int64
  | uint64
  | int32
  | bool
  | string
  | uint32
  | other
deriving DecidableEq, Repr

structure FieldDescriptorProto where
  name : String
  label : FieldLabel
  ftype : FieldType
  type_name : Option String
  oneof_index : Option Int
  proto3_optional : Option Bool
deriving DecidableEq, Repr

structure EnumValueDescriptorProto where
  name : String
  number : Int
deriving DecidableEq, Repr

structure EnumDescriptorProto where
  name : String
  value : List EnumValueDescriptorProto
deriving DecidableEq, Repr

structure OneofDescriptorProto where
  name : String
deriving DecidableEq, Repr

inductive DescriptorProto where
  | mk (name : String)
       (field : List FieldDescriptorProto)
       (nested_type : List DescriptorProto)
       (enum_type : List EnumDescriptorProto)
       (oneof_decl : List OneofDescriptorProto)

def DescriptorProto.name : DescriptorProto → String
  | .mk n _ _ _ _ => n

def DescriptorProto.field : DescriptorProto → List FieldDescriptorProto
  | .mk _ f _ _ _ => f

def DescriptorProto.nested_type : DescriptorProto → List DescriptorProto
  | .mk _ _ n _ _ => n

def DescriptorProto.enum_type : DescriptorProto → List EnumDescriptorProto
  | .mk _ _ _ e _ => e

def DescriptorProto.oneof_decl : DescriptorProto → List OneofDescriptorProto
  | .mk _ _ _ _ o => o

/-! ## OpenAPI schema model (the parts of openapiv3 the generator builds)

Only the fields the generator actually sets are modeled; the remaining
openapiv3 fields are always left at their `Default` values by the source.
`SchemaOr` is `ReferenceOr<Schema>` with a `$ref` kept as its target
string. -/

mutual
inductive Schema where
  | mk (description : Option String) (kind : SchemaKind)

inductive SchemaKind where
  | boolean
  | strT
  | numT
  | intT (enumeration : List Int)
  | arr (items : SchemaOr)
  | obj (properties : List (String × SchemaOr))
  | oneOf (alts : List SchemaOr)

inductive SchemaOr where
  | ref (target : String)
  | item (s : Schema)
end

def Schema.description : Schema → Option String
  | .mk d _ => d

def Schema.kind : Schema → SchemaKind
  | .mk _ k => k

/-- The `properties` of an object schema (empty for any other kind). -/
def objProperties (s : Schema) : List (String × SchemaOr) :=
  match s with
  | .mk _ (.obj ps) => ps
  | _ => []

/-- `"#/components/schemas/<name>"`. -/
def refTarget (n : String) : String := "#/components/schemas/" ++ n

/-- The scalar type mapping the generator applies to fields without a
`type_name` (same match in all three places of the source). -/
def mapFieldType : FieldType → SchemaKind
  | .bool => .boolean
  | .string => .strT
  | .double => .numT
  | .float => .numT
  | .int32 => .intT []
  | .int64 => .intT []
  | .uint32 => .intT []
  | .uint64 => .intT []
  | _ => .strT

/-- Multimap `get_vec`: all values inserted under a key, in insertion
order (which is field declaration order). -/
def multiGet (ps : List (Int × FieldDescriptorProto)) (i : Int) :
    List FieldDescriptorProto :=
  (ps.filter (fun p => p.1 = i)).map (·.2)

/-- The partition of a message's fields sent to the `Either::Left` side
(plain fields): proto3-optional fields, and fields in no oneof group. -/
def plainFields (msg : DescriptorProto) : List FieldDescriptorProto :=
  msg.field.filter (fun f => f.proto3_optional.getD false || f.oneof_index.isNone)

/-- The `Either::Right` side of the partition: `(oneof_index, field)` pairs
of non-proto3-optional fields carrying a oneof index, in declaration
order (the content of the `MultiMap`). -/
def oneofPairs (msg : DescriptorProto) : List (Int × FieldDescriptorProto) :=
  msg.field.filterMap (fun f =>
    if f.proto3_optional.getD false then none
    else f.oneof_index.map (fun i => (i, f)))

namespace OpenAPIGenerator

/-- The property value generated for one plain field
(`generate_fields_schema`, per-field body). -/
def fieldProp (f : FieldDescriptorProto) : SchemaOr :=
  if f.label = .repeated then
    match f.type_name with
    | some tn => .item (.mk none (.arr (.ref (refTarget (shortName tn)))))
    | none => .item (.mk none (.arr (.item (.mk none (mapFieldType f.ftype)))))
  else
    match f.type_name with
    | some tn => .ref (refTarget (shortName tn))
    | none => .item (.mk none (mapFieldType f.ftype))

/-- One alternative of a oneof union: an object schema with exactly one
property, named after the member field, holding its mapped type. -/
def oneOfAlternative (f : FieldDescriptorProto) : SchemaOr :=
  .item (.mk none (.obj [(f.name, .item (.mk none (mapFieldType f.ftype)))]))

/-- The `SchemaKind::OneOf` union built for a oneof group's member fields. -/
def oneOfSchemaOf (ms : List FieldDescriptorProto) : Schema :=
  .mk none (.oneOf (ms.map oneOfAlternative))

/-- One step of the oneof loop of `generate_fields_schema`: a group with no
member fields contributes nothing (`continue`), otherwise its union schema is
inserted under the group's own name. -/
def oneofStep (oneof_fields : List (Int × FieldDescriptorProto))
    (acc : List (String × SchemaOr)) (od : Nat × OneofDescriptorProto) :
    List (String × SchemaOr) :=
  match multiGet oneof_fields (od.1 : Int) with
  | [] => acc
  | ms => idxInsert acc od.2.name (.item (oneOfSchemaOf ms))

/-- `OpenAPIGenerator::generate_fields_schema`: the object schema of one
message — plain-field properties in declaration order, then one `oneOf`
property per non-empty oneof group, in declaration order of the groups. -/
def generate_fields_schema (fields : List FieldDescriptorProto)
    (oneof_fields : List (Int × FieldDescriptorProto))
    (oneof_decl : List OneofDescriptorProto) : Schema :=
  let props1 := fields.foldl (fun acc f => idxInsert acc f.name (fieldProp f)) []
  let props2 := oneof_decl.enum.foldl (oneofStep oneof_fields) props1
  .mk none (.obj props2)

/-- `OpenAPIGenerator::generate_enum_schema`: an integer schema whose
enumeration is the declared numeric values and whose description lists
`"NAME = VALUE"` pairs separated by blank lines. -/
def generate_enum_schema (enum_values : List EnumValueDescriptorProto) : Schema :=
  .mk (some (String.intercalate "\n\n"
        (enum_values.map (fun e => e.name ++ " = " ++ toString e.number))))
      (.intT (enum_values.map (·.number)))

/-- The message's own object schema as built inside
`generate_schema_recursive` (partition of the fields, then
`generate_fields_schema`). -/
def msgSchema (msg : DescriptorProto) : Schema :=
  generate_fields_schema (plainFields msg) (oneofPairs msg) msg.oneof_decl

/-- Fuel-indexed body of `generate_schema_recursive`.  The source guards its
recursion with the depth counter alone (`depth += 1; if depth >= 10 return`),
so the remaining recursion budget `(9 - depth)` is a faithful structural
recursion measure; `gsrF 0 msg` is exactly the source's early return at the
depth limit. -/
def gsrF : Nat → DescriptorProto → List (String × Schema)
  | 0, _ => []
  | fuel + 1, msg =>
    let nested := msg.nested_type.foldl (fun acc m => idxExtend acc (gsrF fuel m)) []
    let m1 := idxInsert nested msg.name (msgSchema msg)
    msg.enum_type.foldl (fun acc e => idxInsert acc e.name (generate_enum_schema e.value)) m1

/-- `OpenAPIGenerator::generate_schema_recursive(msg, depth)`: flatten a
message and all nested messages/enums into one name-keyed schema map,
cutting the recursion when the incremented depth reaches 10. -/
def generate_schema_recursive (msg : DescriptorProto) (depth : Int) :
    List (String × Schema) :=
  gsrF (9 - depth).toNat msg

end OpenAPIGenerator

/-- Fallible map over a list (Option monad): the encoding of a Rust loop
whose body can panic — the first failure aborts everything. -/
def optionMapM {α β : Type} (f : α → Option β) : List α → Option (List β)
  | [] => some []
  | a :: l => do
    let b ← f a
    let bs ← optionMapM f l
    pure (b :: bs)

/-- Fallible left fold over a list (Option monad), same encoding. -/
def optionFoldM {α β : Type} (f : β → α → Option β) (init : β) :
    List α → Option β
  | [] => some init
  | a :: l => do
    let b ← f init a
    optionFoldM f b l

/-! ## Source locations, comments, services (prost_types / prost_build) -/

/-- `source_code_info::Location`: the structural path plus the attached
comment texts. -/
structure Location where
  path : List Int
  leading_comments : Option String
  trailing_comments : Option String
  leading_detached_comments : List String
deriving DecidableEq, Repr

structure SourceCodeInfo where
  location : List Location
deriving DecidableEq, Repr

/-- `prost_build::Comments`, with the texts split into lines. -/
structure Comments where
  leading_detached : List (List String)
  leading : List String
  trailing : List String
deriving DecidableEq, Repr

/-- `Comments::from_location` (the `Commentable` impl). -/
def Comments.from_location (l : Location) : Comments :=
  { leading_detached := l.leading_detached_comments.map rustLines
    leading := (l.leading_comments.map rustLines).getD []
    trailing := (l.trailing_comments.map rustLines).getD [] }

structure MethodDescriptorProto where
  name : Option String
  input_type : Option String
  output_type : Option String
deriving DecidableEq, Repr

structure ServiceDescriptorProto where
  name : String
  method : List MethodDescriptorProto
deriving DecidableEq, Repr

/-- The per-file descriptor data the generator walks.  (Streaming flags and
options are carried through by the source but never read afterwards, so they
are omitted.) -/
structure FileDescriptorProto where
  message_type : List DescriptorProto
  enum_type : List EnumDescriptorProto
  service : List ServiceDescriptorProto
  source_code_info : Option SourceCodeInfo

/-- The `prost_build::Method` fields the generator reads back. -/
structure Method where
  name : String
  comments : Comments
  input_proto_type : String
  output_proto_type : String
deriving DecidableEq, Repr

/-- The `prost_build::Service` fields the generator reads back. -/
structure Service where
  name : String
  comments : Comments
  methods : List Method
deriving DecidableEq, Repr

/-! ## OpenAPI document model (paths side) -/

/-- A media-type table: content type → `$ref` target of the schema
(`MediaType.schema` is always set to a reference by the source). -/
abbrev ContentMap := List (String × String)

structure RequestBody where
  content : ContentMap
deriving DecidableEq, Repr

structure Response where
  description : String
  content : ContentMap
deriving DecidableEq, Repr

/-- The `Operation` fields the source sets: request body, the status→response
table, tags. -/
structure Operation where
  request_body : Option RequestBody
  responses : List (Nat × Response)
  tags : List String
deriving DecidableEq, Repr

/-- A path-level `Parameter::Path` (style Simple, required, no description —
the source hardwires everything except name and schema type). -/
structure Parameter where
  name : String
  required : Bool
  schema : SchemaKind

structure PathItem where
  get : Option Operation
  put : Option Operation
  post : Option Operation
  delete : Option Operation
  parameters : List Parameter

def emptyPathItem : PathItem := ⟨none, none, none, none, []⟩

/-- The whole generated document: `openapi` version, the path table and the
`components.schemas` table (both insertion-ordered maps). -/
structure OpenAPIDoc where
  openapi : String
  paths : List (String × PathItem)
  components_schemas : List (String × Schema)

namespace OpenAPIGenerator

/-- `OpenAPIGenerator::location`: look up the comment location registered
under a structural path.  The source binary-searches the
filtered-and-sorted location list and `unwrap`s, so a miss is a panic —
modeled as `none`. -/
def location (locs : List Location) (p : List Int) : Option Location :=
  (locs.filter (fun l => l.path.length > 0 ∧ l.path.length % 2 = 0)).find?
    (fun l => l.path = p)

/-- The per-method body of `generate_service`: resolve the method's comment
location and unwrap its name and input/output types; any missing piece
(`unwrap` panic in the source) aborts the run. -/
def methodOf (locs : List Location) (sIdx : Int)
    (mp : Nat × MethodDescriptorProto) : Option Method := do
  let mloc ← location locs [6, sIdx, 2, (mp.1 : Int)]
  let name ← mp.2.name
  let input ← mp.2.input_type
  let output ← mp.2.output_type
  pure { name := name
         comments := Comments.from_location mloc
         input_proto_type := input
         output_proto_type := output : Method }

/-- `OpenAPIGenerator::generate_service`: resolve the service comment
location and build every method. -/
def generate_service (locs : List Location) (sIdx : Int)
    (svc : ServiceDescriptorProto) : Option Service := do
  let sloc ← location locs [6, sIdx]
  let methods ← optionMapM (methodOf locs sIdx) svc.method.enum
  pure { name := svc.name, comments := Comments.from_location sloc, methods := methods }

/-- A route triple: a method's input type, output type, and one parsed route
descriptor of its leading comments. -/
abbrev RouteTriple := String × String × OpenAPIPathInfo

/-- The literal path string of a route triple. -/
def triplePath (t : RouteTriple) : String := t.2.2.path

/-- Route extraction of `generate`: each leading comment line that parses is
kept, the rest are skipped. -/
def extractRoutes (comments : List String) : List OpenAPIPathInfo :=
  comments.filterMap (fun c => (OpenAPIPathInfo.tryFrom c).toOption)

/-- The `method_infos` flattening of `generate`: every parsed route of every
method of the service, paired with that method's input/output type names, in
traversal order. -/
def serviceTriples (svc : Service) : List RouteTriple :=
  svc.methods.flatMap (fun m =>
    (extractRoutes m.comments.leading).map
      (fun pd => (m.input_proto_type, m.output_proto_type, pd)))

/-- One step of the path-grouping loop of `generate`: append the triple to
the group of its literal path, creating the group on first occurrence. -/
def addTriple (gs : List (String × List RouteTriple)) (t : RouteTriple) :
    List (String × List RouteTriple) :=
  if gs.any (fun g => g.1 = triplePath t) then
    gs.map (fun g => if g.1 = triplePath t then (g.1, g.2 ++ [t]) else g)
  else gs ++ [(triplePath t, [t])]

/-- The `paths: HashMap<String, Vec<_>>` grouping of `generate`, by literal
path string.  (List order is the first-occurrence order of the keys, a
canonical enumeration of the unordered HashMap.) -/
def groupByPath (ts : List RouteTriple) : List (String × List RouteTriple) :=
  ts.foldl addTriple []

/-- The schema type generated for a path parameter's declared type token
(`generate_path`, parameter match). -/
def paramTypeSchema : String → SchemaKind
  | "string" => .strT
  | "int" => .intT []
  | _ => .strT

def mkPathParameter (q : String × String) : Parameter :=
  { name := q.1, required := true, schema := paramTypeSchema q.2 }

/-- The operation built in `generate_path` for one route triple: a request
body only when the method is not GET and the body flag is set, exactly one
200 response describing the output type, and the descriptor's tags. -/
def buildOperation (input_type output_type : String) (pd : OpenAPIPathInfo) :
    Operation :=
  { request_body :=
      if pd.method ≠ "GET" ∧ pd.include_body = true then
        some ⟨[("application/json", refTarget (shortName input_type))]⟩
      else none
    responses :=
      [(200, ⟨"A response containing " ++ shortName output_type,
              [("application/json", refTarget (shortName output_type))]⟩)]
    tags := pd.tags }

/-- Attach the operation of one route triple to the slot of its HTTP method;
any other method token is dropped. -/
def applyTriple (pi : PathItem) (t : RouteTriple) : PathItem :=
  let op := buildOperation t.1 t.2.1 t.2.2
  match t.2.2.method with
  | "GET" => { pi with get := some op }
  | "POST" => { pi with post := some op }
  | "PUT" => { pi with put := some op }
  | "DELETE" => { pi with delete := some op }
  | _ => pi

/-- `OpenAPIGenerator::generate_path`: path-level parameters from the first
descriptor of the group, then one operation per descriptor.  The source
`unwrap`s the first element, so an empty group (never produced by the
callers) is `none`. -/
def generate_path (g : List RouteTriple) : Option PathItem :=
  match g with
  | [] => none
  | first :: _ =>
    some (g.foldl applyTriple
      { emptyPathItem with
          parameters := first.2.2.parameters.map mkPathParameter })

/-- The per-group loop of `generate`: build each group's path item and insert
it into the path table under the rewritten path. -/
def buildPathTable (gs : List (String × List RouteTriple))
    (paths : List (String × PathItem)) : Option (List (String × PathItem)) :=
  optionFoldM (fun acc pg => do
    let pi ← generate_path pg.2
    pure (idxInsert acc (path_to_openapi_path pg.1) pi)) paths gs

/-- The whole path contribution of one service in `generate`: extract
triples, group them by literal path, build and insert the path items. -/
def servicePaths (paths : List (String × PathItem)) (svc : Service) :
    Option (List (String × PathItem)) :=
  buildPathTable (groupByPath (serviceTriples svc)) paths

/-- The retained location list of one file (`generate`: keep non-empty,
even-length structural paths; the subsequent sort only enables the binary
search and does not change which paths are present). -/
def fileLocations (f : FileDescriptorProto) : List Location :=
  (f.source_code_info.getD ⟨[]⟩).location

/-- The accumulated output of `generate` while iterating files. -/
structure GenAcc where
  paths : List (String × PathItem)
  schemas : List (String × Schema)

/-- The per-service body of `generate`: resolve the service's comments and
methods, then add its path items. -/
def serviceStep (locs : List Location) (p : List (String × PathItem))
    (sp : Nat × ServiceDescriptorProto) : Option (List (String × PathItem)) := do
  let s ← generate_service locs (sp.1 : Int) sp.2
  servicePaths p s

/-- Per-file body of `generate`: flatten the messages and the file-level
enums into the schema table, then walk the services, extracting routes and
inserting path items. -/
def processFile (acc : GenAcc) (f : FileDescriptorProto) : Option GenAcc := do
  let si ← f.source_code_info
  let locs := si.location
  let schemas1 := f.message_type.foldl
      (fun m msg => idxExtend m (generate_schema_recursive msg 0)) acc.schemas
  let schemas2 := f.enum_type.foldl
      (fun m e => idxInsert m e.name (generate_enum_schema e.value)) schemas1
  let paths ← optionFoldM (serviceStep locs) acc.paths f.service.enum
  pure { paths := paths, schemas := schemas2 }

/-- `OpenAPIGenerator::generate`: one pass over the descriptor set producing
the document (`openapi: "3.0.0"`, the path table, `components.schemas`).
Any `unwrap`/`expect` panic of the source is `none`: no partial document. -/
def generate (files : List FileDescriptorProto) : Option OpenAPIDoc := do
  let acc ← optionFoldM processFile ⟨[], []⟩ files
  pure { openapi := "3.0.0", paths := acc.paths, components_schemas := acc.schemas }

end OpenAPIGenerator

/-- The grouping described by claim C1, written from the spec's words: route
triples of ALL methods of ALL services of the file are collected into a
single grouping by literal path before path items are built (the source
instead runs the grouping and insertion once per service). -/
def specFileWideGroupingPaths (f : FileDescriptorProto) :
    Option (List (String × PathItem)) := do
  let si ← f.source_code_info
  let locs := si.location
  let svcs ← optionMapM
      (fun sp => OpenAPIGenerator.generate_service locs (sp.1 : Int) sp.2) f.service.enum
  OpenAPIGenerator.buildPathTable
    (OpenAPIGenerator.groupByPath (svcs.flatMap OpenAPIGenerator.serviceTriples)) []

/-- Concrete two-service file used to separate per-service grouping from the
claimed file-wide grouping: service 0 routes `GET /x`, service 1 routes
`PUT /x`. -/
def twoServiceFile : FileDescriptorProto :=
  { message_type := []
    enum_type := []
    service :=
      [ { name := "A", method := [⟨some "M1", some ".pkg.I1", some ".pkg.O1"⟩] },
        { name := "B", method := [⟨some "M2", some ".pkg.I2", some ".pkg.O2"⟩] } ]
    source_code_info := some ⟨[
      ⟨[6, 0], some "", none, []⟩,
      ⟨[6, 0, 2, 0], some "GET /x", none, []⟩,
      ⟨[6, 1], some "", none, []⟩,
      ⟨[6, 1, 2, 0], some "PUT /x", none, []⟩ ]⟩ }

/-! ## Association-map lemmas -/

section MapLemmas

variable {α β : Type} [DecidableEq α]

theorem alookup_nil (k : α) : alookup ([] : List (α × β)) k = none := rfl

theorem alookup_cons (e : α × β) (m : List (α × β)) (k : α) :
    alookup (e :: m) k = if e.1 = k then some e.2 else alookup m k := by
  by_cases h : e.1 = k <;> simp [alookup, List.find?, h]

theorem alookup_append (a b : List (α × β)) (k : α) :
    alookup (a ++ b) k =
      match alookup a k with
      | some v => some v
      | none => alookup b k := by
  induction a with
  | nil => simp [alookup_nil]
  | cons e a ih =>
    by_cases h : e.1 = k <;> simp [alookup_cons, h, ih]

theorem alookup_eq_none_iff (m : List (α × β)) (k : α) :
    alookup m k = none ↔ ∀ e ∈ m, e.1 ≠ k := by
  simp [alookup, List.find?_eq_none]

theorem any_key_iff (m : List (α × β)) (k : α) :
    m.any (fun e => e.1 = k) = true ↔ ∃ e ∈ m, e.1 = k := by
  simp

theorem alookup_update_self (m : List (α × β)) (k : α) (f : β → β) :
    alookup (m.map (fun e => if e.1 = k then (k, f e.2) else e)) k =
      (alookup m k).map f := by
  induction m with
  | nil => simp [alookup_nil]
  | cons e m ih =>
    by_cases h : e.1 = k
    · simp [h, alookup_cons]
    · simp only [List.map_cons, if_neg h]
      rw [alookup_cons, alookup_cons, if_neg h, if_neg h, ih]

theorem alookup_update_ne (m : List (α × β)) (k k' : α) (f : β → β) (h : k' ≠ k) :
    alookup (m.map (fun e => if e.1 = k then (k, f e.2) else e)) k' = alookup m k' := by
  induction m with
  | nil => simp [alookup_nil]
  | cons e m ih =>
    by_cases he : e.1 = k
    · simp only [List.map_cons, if_pos he]
      rw [alookup_cons, alookup_cons, ih, he]
      simp [Ne.symm h]
    · simp only [List.map_cons, if_neg he]
      rw [alookup_cons, alookup_cons, ih]

theorem keys_update (m : List (α × β)) (k : α) (f : β → β) :
    (m.map (fun e => if e.1 = k then (k, f e.2) else e)).map Prod.fst =
      m.map Prod.fst := by
  induction m with
  | nil => rfl
  | cons e m ih =>
    by_cases h : e.1 = k <;> simp [h, ih]

theorem alookup_update_const_self (m : List (α × β)) (k : α) (v : β) :
    alookup (m.map (fun e => if e.1 = k then (k, v) else e)) k =
      (alookup m k).map (fun _ => v) := by
  induction m with
  | nil => simp [alookup_nil]
  | cons e m ih =>
    by_cases h : e.1 = k
    · simp [h, alookup_cons]
    · simp only [List.map_cons, if_neg h]
      rw [alookup_cons, alookup_cons, if_neg h, if_neg h, ih]

theorem alookup_update_const_ne (m : List (α × β)) (k k' : α) (v : β) (h : k' ≠ k) :
    alookup (m.map (fun e => if e.1 = k then (k, v) else e)) k' = alookup m k' := by
  induction m with
  | nil => simp [alookup_nil]
  | cons e m ih =>
    by_cases he : e.1 = k
    · simp only [List.map_cons, if_pos he]
      rw [alookup_cons, alookup_cons, ih, he]
      simp [Ne.symm h]
    · simp only [List.map_cons, if_neg he]
      rw [alookup_cons, alookup_cons, ih]

theorem keys_update_const (m : List (α × β)) (k : α) (v : β) :
    (m.map (fun e => if e.1 = k then (k, v) else e)).map Prod.fst =
      m.map Prod.fst := by
  induction m with
  | nil => rfl
  | cons e m ih =>
    by_cases h : e.1 = k <;> simp [h, ih]

theorem alookup_idxInsert_self (m : List (α × β)) (k : α) (v : β) :
    alookup (idxInsert m k v) k = some v := by
  unfold idxInsert
  by_cases h : m.any (fun e => e.1 = k) = true
  · rw [if_pos h]
    rw [alookup_update_const_self m k v]
    rcases hm : alookup m k with _ | w
    · exfalso
      rw [any_key_iff] at h
      rw [alookup_eq_none_iff] at hm
      obtain ⟨e, he, hk⟩ := h
      exact hm e he hk
    · rfl
  · rw [if_neg h]
    rw [alookup_append]
    have hm : alookup m k = none := by
      rw [alookup_eq_none_iff]
      intro e he hk
      exact h (by rw [any_key_iff]; exact ⟨e, he, hk⟩)
    simp [hm, alookup_cons]

theorem alookup_idxInsert_ne (m : List (α × β)) (k k' : α) (v : β) (h : k' ≠ k) :
    alookup (idxInsert m k v) k' = alookup m k' := by
  unfold idxInsert
  by_cases hm : m.any (fun e => e.1 = k) = true
  · rw [if_pos hm]
    exact alookup_update_const_ne m k k' v h
  · rw [if_neg hm, alookup_append]
    rcases hl : alookup m k' with _ | w
    · simp [hl, alookup_cons, Ne.symm h, alookup_nil]
    · simp [hl]

theorem keys_idxInsert_mem (m : List (α × β)) (k : α) (v : β)
    (h : k ∈ m.map Prod.fst) :
    (idxInsert m k v).map Prod.fst = m.map Prod.fst := by
  have hany : m.any (fun e => e.1 = k) = true := by
    rw [any_key_iff]
    simp only [List.mem_map] at h
    obtain ⟨e, he, hk⟩ := h
    exact ⟨e, he, hk⟩
  unfold idxInsert
  rw [if_pos hany]
  exact keys_update_const m k v

theorem keys_idxInsert_not_mem (m : List (α × β)) (k : α) (v : β)
    (h : k ∉ m.map Prod.fst) :
    idxInsert m k v = m ++ [(k, v)] := by
  unfold idxInsert
  rw [if_neg]
  intro hc
  rw [any_key_iff] at hc
  obtain ⟨e, he, hk⟩ := hc
  exact h (by simp only [List.mem_map]; exact ⟨e, he, hk⟩)

theorem nodup_keys_idxInsert (m : List (α × β)) (k : α) (v : β)
    (h : (m.map Prod.fst).Nodup) : ((idxInsert m k v).map Prod.fst).Nodup := by
  by_cases hk : k ∈ m.map Prod.fst
  · rw [keys_idxInsert_mem m k v hk]; exact h
  · rw [keys_idxInsert_not_mem m k v hk]
    simp [List.nodup_append, h, hk]

theorem mem_keys_idxInsert {m : List (α × β)} {k k' : α} {v : β}
    (h : k' ∈ (idxInsert m k v).map Prod.fst) :
    k' = k ∨ k' ∈ m.map Prod.fst := by
  unfold idxInsert at h
  split at h
  · rw [keys_update_const] at h; exact Or.inr h
  · simp only [List.map_append, List.mem_append] at h
    rcases h with h | h
    · exact Or.inr h
    · simp at h; exact Or.inl h

theorem nodup_keys_idxExtend (a b : List (α × β))
    (h : (a.map Prod.fst).Nodup) : ((idxExtend a b).map Prod.fst).Nodup := by
  induction b generalizing a with
  | nil => exact h
  | cons e b ih =>
    exact ih (idxInsert a e.1 e.2) (nodup_keys_idxInsert a e.1 e.2 h)

theorem mem_keys_idxExtend {a b : List (α × β)} {k : α}
    (h : k ∈ (idxExtend a b).map Prod.fst) :
    k ∈ a.map Prod.fst ∨ k ∈ b.map Prod.fst := by
  induction b generalizing a with
  | nil => exact Or.inl h
  | cons e b ih =>
    rcases ih (a := idxInsert a e.1 e.2) h with h' | h'
    · rcases mem_keys_idxInsert h' with h'' | h''
      · exact Or.inr (by simp [h''])
      · exact Or.inl h''
    · exact Or.inr (by simp [h'])

/-- Folding fresh-keyed inserts appends the entries in order. -/
theorem foldl_idxInsert_fresh {γ : Type} (l : List γ) (key : γ → α) (val : γ → β) :
    ∀ (acc : List (α × β)), (∀ x ∈ l, key x ∉ acc.map Prod.fst) →
    (l.map key).Nodup →
    l.foldl (fun a x => idxInsert a (key x) (val x)) acc =
      acc ++ l.map (fun x => (key x, val x)) := by
  induction l with
  | nil => intro acc _ _; simp
  | cons x l ih =>
    intro acc hfresh hnd
    simp only [List.foldl_cons]
    rw [keys_idxInsert_not_mem acc (key x) (val x) (hfresh x (by simp))]
    rw [ih (acc ++ [(key x, val x)])]
    · simp
    · intro y hy
      simp only [List.map_append, List.mem_append]
      rintro (hc | hc)
      · exact hfresh y (by simp [hy]) hc
      · simp only [List.map_cons, List.map_nil, List.mem_singleton] at hc
        simp only [List.map_cons, List.nodup_cons] at hnd
        exact hnd.1 (hc ▸ List.mem_map_of_mem key hy)
    · simp only [List.map_cons, List.nodup_cons] at hnd
      exact hnd.2

theorem idxExtend_nil (b : List (α × β)) (h : (b.map Prod.fst).Nodup) :
    idxExtend [] b = b := by
  unfold idxExtend
  have := foldl_idxInsert_fresh b Prod.fst Prod.snd [] (by simp) h
  simpa using this

end MapLemmas

section KeyedUpdate

variable {α β : Type} [DecidableEq α]

theorem alookup_updatek_self (m : List (α × β)) (k : α) (f : β → β) :
    alookup (m.map (fun e => if e.1 = k then (e.1, f e.2) else e)) k =
      (alookup m k).map f := by
  induction m with
  | nil => simp [alookup_nil]
  | cons e m ih =>
    by_cases h : e.1 = k
    · simp [h, alookup_cons]
    · simp only [List.map_cons, if_neg h]
      rw [alookup_cons, alookup_cons, if_neg h, if_neg h, ih]

theorem alookup_updatek_ne (m : List (α × β)) (k k' : α) (f : β → β) (h : k' ≠ k) :
    alookup (m.map (fun e => if e.1 = k then (e.1, f e.2) else e)) k' =
      alookup m k' := by
  induction m with
  | nil => simp [alookup_nil]
  | cons e m ih =>
    by_cases he : e.1 = k
    · simp only [List.map_cons, if_pos he]
      rw [alookup_cons, alookup_cons, ih]
      have hne : e.1 ≠ k' := by rw [he]; exact Ne.symm h
      simp [hne]
    · simp only [List.map_cons, if_neg he]
      rw [alookup_cons, alookup_cons, ih]

theorem keys_updatek (m : List (α × β)) (k : α) (f : β → β) :
    (m.map (fun e => if e.1 = k then (e.1, f e.2) else e)).map Prod.fst =
      m.map Prod.fst := by
  induction m with
  | nil => rfl
  | cons e m ih =>
    by_cases h : e.1 = k <;> simp [h, ih]

theorem alookup_of_mem_nodup {m : List (α × β)} {k : α} {v : β}
    (hm : (k, v) ∈ m) (hnd : (m.map Prod.fst).Nodup) : alookup m k = some v := by
  induction m with
  | nil => simp at hm
  | cons e m ih =>
    simp only [List.map_cons, List.nodup_cons] at hnd
    rcases List.mem_cons.mp hm with he | he
    · rw [← he, alookup_cons]; simp
    · rw [alookup_cons, if_neg, ih he hnd.2]
      intro hk
      exact hnd.1 (hk ▸ List.mem_map_of_mem Prod.fst he)

end KeyedUpdate

namespace OpenAPIGenerator

theorem alookup_addTriple_upd_self (acc : List (String × List RouteTriple))
    (p : String) (t : RouteTriple) :
    alookup (acc.map (fun g => if g.1 = p then (g.1, g.2 ++ [t]) else g)) p =
      (alookup acc p).map (fun v => v ++ [t]) := by
  induction acc with
  | nil => simp [alookup_nil]
  | cons e m ih =>
    by_cases h : e.1 = p
    · simp [h, alookup_cons]
    · simp only [List.map_cons, if_neg h]
      rw [alookup_cons, alookup_cons, if_neg h, if_neg h, ih]

theorem keys_addTriple (gs : List (String × List RouteTriple)) (t : RouteTriple) :
    (addTriple gs t).map Prod.fst =
      if gs.any (fun g => g.1 = triplePath t) then gs.map Prod.fst
      else gs.map Prod.fst ++ [triplePath t] := by
  unfold addTriple
  by_cases h : gs.any (fun g => g.1 = triplePath t) = true
  · rw [if_pos h, if_pos h]
    exact keys_updatek gs (triplePath t) (· ++ [t])
  · rw [if_neg h, if_neg h]
    simp

theorem nodup_keys_groupByPath_aux (ts : List RouteTriple) :
    ∀ acc : List (String × List RouteTriple), ((acc.map Prod.fst).Nodup) →
      (((ts.foldl addTriple acc)).map Prod.fst).Nodup := by
  induction ts with
  | nil => intro acc h; exact h
  | cons t ts ih =>
    intro acc h
    simp only [List.foldl_cons]
    refine ih (addTriple acc t) ?_
    rw [keys_addTriple]
    by_cases hc : acc.any (fun g => g.1 = triplePath t) = true
    · rw [if_pos hc]; exact h
    · rw [if_neg hc]
      refine List.Nodup.append h (List.nodup_singleton _) ?_
      intro x hx hx2
      simp only [List.mem_singleton] at hx2
      subst hx2
      rw [List.mem_map] at hx
      obtain ⟨e, he, hk⟩ := hx
      exact absurd (any_key_iff acc (triplePath t) |>.mpr ⟨e, he, hk⟩) hc

theorem alookup_groupByPath_aux (ts : List RouteTriple) :
    ∀ (acc : List (String × List RouteTriple)) (p : String),
      alookup (ts.foldl addTriple acc) p =
        match alookup acc p with
        | some g => some (g ++ ts.filter (fun t => triplePath t = p))
        | none =>
          if ts.filter (fun t => triplePath t = p) = [] then none
          else some (ts.filter (fun t => triplePath t = p)) := by
  induction ts with
  | nil =>
    intro acc p
    rcases h : alookup acc p with _ | g <;> simp [h]
  | cons t ts ih =>
    intro acc p
    simp only [List.foldl_cons]
    rw [ih (addTriple acc t) p]
    by_cases hp : triplePath t = p
    · rcases hacc : alookup acc p with _ | g
      · have hany : acc.any (fun g => g.1 = triplePath t) = false := by
          rw [Bool.eq_false_iff]
          intro hc
          rw [any_key_iff] at hc
          obtain ⟨e, he, hk⟩ := hc
          rw [alookup_eq_none_iff] at hacc
          exact hacc e he (hp ▸ hk)
        have hupd : addTriple acc t = acc ++ [(triplePath t, [t])] := by
          unfold addTriple
          rw [if_neg (by rw [hany]; simp)]
        rw [hupd, alookup_append, hacc]
        simp [hp, alookup_cons, List.filter_cons]
      · have hany : acc.any (fun g => g.1 = triplePath t) = true := by
          rw [any_key_iff]
          have : (p, g) ∈ acc ∨ True := Or.inr trivial
          -- extract an entry from the successful lookup
          unfold alookup at hacc
          rcases hf : acc.find? (fun e => e.1 = p) with _ | e
          · rw [hf] at hacc; simp at hacc
          · have := List.find?_some hf
            have hmem := List.mem_of_find?_eq_some hf
            simp only [decide_eq_true_eq] at this
            exact ⟨e, hmem, hp ▸ this⟩
        have hupd : addTriple acc t =
            acc.map (fun g => if g.1 = triplePath t then (g.1, g.2 ++ [t]) else g) := by
          unfold addTriple
          rw [if_pos hany]
        rw [hupd, hp, alookup_addTriple_upd_self acc p t, hacc]
        simp [List.filter_cons, hp]
    · have hlk : alookup (addTriple acc t) p = alookup acc p := by
        unfold addTriple
        split
        · exact alookup_updatek_ne acc (triplePath t) p (· ++ [t]) (Ne.symm hp)
        · rw [alookup_append]
          rcases hacc : alookup acc p with _ | g
          · simp [hacc, alookup_cons, alookup_nil, hp]
          · simp [hacc]
      rw [hlk]
      have hf : List.filter (fun t => decide (triplePath t = p)) (t :: ts) =
          List.filter (fun t => decide (triplePath t = p)) ts := by
        simp [List.filter_cons, hp]
      rw [hf]

/-- C1 (amended): the grouping the code performs, per service: the triples
are grouped by literal path, one (non-empty) group per distinct path, the
group of a path being exactly the triples with that path in traversal
order. -/
theorem claim1_per_service_grouping :
    ∀ (ts : List RouteTriple) (p : String),
      ((groupByPath ts).map Prod.fst).Nodup ∧
      alookup (groupByPath ts) p =
        (if ts.filter (fun t => triplePath t = p) = [] then none
         else some (ts.filter (fun t => triplePath t = p))) ∧
      ∀ pg ∈ groupByPath ts,
        pg.2 = ts.filter (fun t => triplePath t = pg.1) ∧ pg.2 ≠ [] := by
  intro ts p
  have hnd := nodup_keys_groupByPath_aux ts [] (by simp)
  refine ⟨hnd, ?_, ?_⟩
  · have := alookup_groupByPath_aux ts [] p
    simpa [alookup_nil] using this
  · intro pg hmem
    have hl : alookup (groupByPath ts) pg.1 = some pg.2 := by
      have : (pg.1, pg.2) ∈ groupByPath ts := by simpa using hmem
      exact alookup_of_mem_nodup this hnd
    have := alookup_groupByPath_aux ts [] pg.1
    simp only [alookup_nil] at this
    unfold groupByPath at hl
    rw [this] at hl
    by_cases he : ts.filter (fun t => triplePath t = pg.1) = []
    · rw [if_pos he] at hl; simp at hl
    · rw [if_neg he] at hl
      refine ⟨by injection hl with h; exact h.symm, ?_⟩
      intro hc
      injection hl with h
      exact he (h ▸ hc)

end OpenAPIGenerator

/-- C1 (counterexample): on a file with two services, both routing the path
`/x` (service 0 via GET, service 1 via PUT), the source's per-service
grouping makes the later service's path item replace the earlier one, so the
final item at `/x` has no `get` operation — while the claimed single
file-wide grouping would give one item carrying both operations. -/
theorem claim1_counterexample :
    (OpenAPIGenerator.generate [twoServiceFile]).map
        (fun d => (alookup d.paths "/x").map (fun pi => (pi.get.isSome, pi.put.isSome))) =
      some (some (false, true)) ∧
    (specFileWideGroupingPaths twoServiceFile).map
        (fun t => (alookup t "/x").map (fun pi => (pi.get.isSome, pi.put.isSome))) =
      some (some (true, true)) := by
  exact ⟨by decide, by decide⟩

/-! ## C2: the recursion-depth limit of the schema flattening -/

/-- Straight-line nesting: one message per name, each directly nesting the
next, so the i-th name sits at nesting depth i+1. -/
def chainMsg : List String → DescriptorProto
  | [] => .mk "" [] [] [] []
  | [n] => .mk n [] [] [] []
  | n :: rest => .mk n [] [chainMsg rest] [] []

theorem chain_keys (ns : List String) (hne : ns ≠ []) (hnd : ns.Nodup) :
    ∀ d : Int,
      (OpenAPIGenerator.generate_schema_recursive (chainMsg ns) d).map Prod.fst =
        (ns.take (9 - d).toNat).reverse := by
  induction ns with
  | nil => exact absurd rfl hne
  | cons n rest ih =>
    intro d
    unfold OpenAPIGenerator.generate_schema_recursive
    rcases hk : (9 - d).toNat with _ | k
    · simp [OpenAPIGenerator.gsrF, hk]
    · rcases rest with _ | ⟨m, rest'⟩
      · simp [chainMsg, OpenAPIGenerator.gsrF, DescriptorProto.nested_type,
          DescriptorProto.name, DescriptorProto.enum_type, idxInsert]
    -- rest = m :: rest'
      · have hrestne : (m :: rest') ≠ [] := by simp
        have hrestnd : (m :: rest').Nodup := (List.nodup_cons.mp hnd).2
        have hnmem : n ∉ m :: rest' := (List.nodup_cons.mp hnd).1
        have ihk := ih hrestne hrestnd (d + 1)
        unfold OpenAPIGenerator.generate_schema_recursive at ihk
        have hfuel : (9 - (d + 1)).toNat = k := by omega
        rw [hfuel] at ihk
        have hsubnd : ((OpenAPIGenerator.gsrF k (chainMsg (m :: rest'))).map Prod.fst).Nodup := by
          rw [ihk]
          exact List.nodup_reverse.mpr (hrestnd.sublist (List.take_sublist _ _))
        have hext : idxExtend [] (OpenAPIGenerator.gsrF k (chainMsg (m :: rest'))) =
            OpenAPIGenerator.gsrF k (chainMsg (m :: rest')) := by
          refine idxExtend_nil _ ?_
          -- whole-entry key list nodup
          exact hsubnd
        have hnotin : n ∉ (OpenAPIGenerator.gsrF k (chainMsg (m :: rest'))).map Prod.fst := by
          rw [ihk]
          intro hc
          rw [List.mem_reverse] at hc
          exact hnmem (List.take_subset _ _ hc)
        show (OpenAPIGenerator.gsrF (k + 1) (chainMsg (n :: m :: rest'))).map Prod.fst = _
        have hchain : chainMsg (n :: m :: rest') = .mk n [] [chainMsg (m :: rest')] [] [] := rfl
        rw [hchain]
        simp only [OpenAPIGenerator.gsrF, DescriptorProto.nested_type, DescriptorProto.name,
          DescriptorProto.enum_type, List.foldl_cons, List.foldl_nil]
        rw [hext, keys_idxInsert_not_mem _ _ _ hnotin]
        simp only [List.map_append, ihk]
        simp [List.take_succ_cons]

/-- C2: flattening a straight chain of nested messages stops exactly at the
depth limit: starting at depth 0, the message at nesting level i+1 receives a
schema entry iff i < 9, so for an 11-deep chain the levels 10 and 11 get no
entry while every level above gets one; hitting the limit just truncates and
is not an error (the function is total). -/
theorem claim2_depth_limit :
    ∀ (ns : List String), ns.length = 11 → ns.Nodup →
      ∀ (i : Nat) (hi : i < ns.length),
        (ns.get ⟨i, hi⟩ ∈
            (OpenAPIGenerator.generate_schema_recursive (chainMsg ns) 0).map Prod.fst) ↔
          i < 9 := by
  intro ns hlen hnd i hi
  have hne : ns ≠ [] := by intro h; rw [h] at hlen; simp at hlen
  rw [chain_keys ns hne hnd 0]
  have h9 : ((9 : Int) - 0).toNat = 9 := by omega
  rw [h9, List.mem_reverse]
  constructor
  · intro hmem
    rw [List.mem_iff_getElem] at hmem
    obtain ⟨j, hj, hget⟩ := hmem
    have hjlen : j < ns.length := lt_of_lt_of_le hj (by simp)
    rw [List.getElem_take] at hget
    have hj9 : j < 9 := by
      have := hj
      simp only [List.length_take] at this
      omega
    have hji : j = i := by
      have hinj := List.nodup_iff_injective_get.mp hnd
      have h2 : ns.get ⟨j, hjlen⟩ = ns.get ⟨i, hi⟩ := hget
      have h3 := congrArg Fin.val (hinj h2)
      simpa using h3
    omega
  · intro hi9
    rw [List.mem_iff_getElem]
    refine ⟨i, ?_, ?_⟩
    · simp only [List.length_take]
      omega
    · rw [List.getElem_take]
      rfl

def elevenNames : List String :=
  ["M1", "M2", "M3", "M4", "M5", "M6", "M7", "M8", "M9", "M10", "M11"]

/-- Witness for C2: in the 11-deep chain, level 1 (index 0) still receives a
schema entry. -/
theorem claim2_depth_limit_witness :
    elevenNames.get ⟨0, by decide⟩ ∈
      (OpenAPIGenerator.generate_schema_recursive (chainMsg elevenNames) 0).map Prod.fst :=
  (claim2_depth_limit elevenNames (by decide) (by decide) 0 (by decide)).mpr (by decide)

/-! ## C3: schema-table keys are bare short names, collisions overwrite -/

section FoldKeyLemmas

variable {α β γ : Type} [DecidableEq α]

theorem nodup_keys_foldl_extend (f : γ → List (α × β)) (l : List γ) :
    ∀ acc : List (α × β), ((acc.map Prod.fst).Nodup) →
      (((l.foldl (fun a x => idxExtend a (f x)) acc)).map Prod.fst).Nodup := by
  induction l with
  | nil => intro acc h; exact h
  | cons x l ih =>
    intro acc h
    simp only [List.foldl_cons]
    exact ih _ (nodup_keys_idxExtend acc (f x) h)

theorem nodup_keys_foldl_insert (key : γ → α) (val : γ → β) (l : List γ) :
    ∀ acc : List (α × β), ((acc.map Prod.fst).Nodup) →
      (((l.foldl (fun a x => idxInsert a (key x) (val x)) acc)).map Prod.fst).Nodup := by
  induction l with
  | nil => intro acc h; exact h
  | cons x l ih =>
    intro acc h
    simp only [List.foldl_cons]
    exact ih _ (nodup_keys_idxInsert acc (key x) (val x) h)

theorem mem_keys_foldl_insert {key : γ → α} {val : γ → β} {l : List γ} :
    ∀ {acc : List (α × β)} {k : α},
      k ∈ ((l.foldl (fun a x => idxInsert a (key x) (val x)) acc)).map Prod.fst →
      k ∈ acc.map Prod.fst ∨ k ∈ l.map key := by
  induction l with
  | nil => intro acc k h; exact Or.inl h
  | cons x l ih =>
    intro acc k h
    simp only [List.foldl_cons] at h
    rcases ih h with h' | h'
    · rcases mem_keys_idxInsert h' with h'' | h''
      · exact Or.inr (by simp [h''])
      · exact Or.inl h''
    · exact Or.inr (by simp [h'])

theorem mem_keys_foldl_extend {f : γ → List (α × β)} {l : List γ} :
    ∀ {acc : List (α × β)} {k : α},
      k ∈ ((l.foldl (fun a x => idxExtend a (f x)) acc)).map Prod.fst →
      k ∈ acc.map Prod.fst ∨ ∃ x ∈ l, k ∈ (f x).map Prod.fst := by
  induction l with
  | nil => intro acc k h; exact Or.inl h
  | cons x l ih =>
    intro acc k h
    simp only [List.foldl_cons] at h
    rcases ih h with h' | h'
    · rcases mem_keys_idxExtend h' with h'' | h''
      · exact Or.inl h''
      · exact Or.inr ⟨x, by simp, h''⟩
    · obtain ⟨y, hy, hk⟩ := h'
      exact Or.inr ⟨y, by simp [hy], hk⟩

end FoldKeyLemmas

mutual
/-- All type names declared by a message tree: its own name, its nested
enums' names, and recursively the names declared by its nested messages —
each taken verbatim from the descriptor (short, unqualified names). -/
def declaredNames : DescriptorProto → List String
  | .mk n _ nested enums _ => n :: (enums.map (·.name) ++ declaredNamesL nested)

/-- `declaredNames` over a list of sibling messages. -/
def declaredNamesL : List DescriptorProto → List String
  | [] => []
  | m :: ms => declaredNames m ++ declaredNamesL ms
end

theorem declaredNames_sub_of_mem {m : DescriptorProto} {ms : List DescriptorProto}
    (hm : m ∈ ms) : ∀ k ∈ declaredNames m, k ∈ declaredNamesL ms := by
  induction ms with
  | nil => simp at hm
  | cons x ms ih =>
    intro k hk
    rcases List.mem_cons.mp hm with he | he
    · rw [declaredNamesL]
      exact List.mem_append.mpr (Or.inl (he ▸ hk))
    · rw [declaredNamesL]
      exact List.mem_append.mpr (Or.inr (ih he k hk))

theorem gsrF_keys_nodup (fuel : Nat) (msg : DescriptorProto) :
    ((OpenAPIGenerator.gsrF fuel msg).map Prod.fst).Nodup := by
  cases fuel with
  | zero => simp [OpenAPIGenerator.gsrF]
  | succ fuel =>
    cases msg with
    | mk n flds nested enums oneofs =>
      simp only [OpenAPIGenerator.gsrF]
      refine nodup_keys_foldl_insert (fun e : EnumDescriptorProto => e.name)
        (fun e => OpenAPIGenerator.generate_enum_schema e.value) _ _ ?_
      refine nodup_keys_idxInsert _ _ _ ?_
      exact nodup_keys_foldl_extend _ _ [] (by simp)

theorem gsrF_keys_sub (fuel : Nat) :
    ∀ (msg : DescriptorProto) (k : String),
      k ∈ (OpenAPIGenerator.gsrF fuel msg).map Prod.fst → k ∈ declaredNames msg := by
  induction fuel with
  | zero => intro msg k h; simp [OpenAPIGenerator.gsrF] at h
  | succ fuel ih =>
    intro msg k h
    cases msg with
    | mk n flds nested enums oneofs =>
      simp only [OpenAPIGenerator.gsrF] at h
      rw [declaredNames]
      rcases mem_keys_foldl_insert h with h' | h'
      · rcases mem_keys_idxInsert h' with h'' | h''
        · simp [h'', DescriptorProto.name]
        · rcases mem_keys_foldl_extend h'' with h3 | h3
          · simp at h3
          · obtain ⟨m, hm, hk⟩ := h3
            have := ih m k hk
            simp only [DescriptorProto.nested_type] at hm
            exact List.mem_cons.mpr (Or.inr
              (List.mem_append.mpr (Or.inr (declaredNames_sub_of_mem hm k this))))
      · simp only [DescriptorProto.enum_type] at h'
        exact List.mem_cons.mpr (Or.inr (List.mem_append.mpr (Or.inl h')))

/-- Two distinct nested messages that share the short name `X`. -/
def collideMsg : DescriptorProto :=
  .mk "M" []
    [ .mk "X" [{ name := "a", label := .optional, ftype := .string,
                 type_name := none, oneof_index := none, proto3_optional := none }] [] [] [],
      .mk "X" [{ name := "b", label := .optional, ftype := .string,
                 type_name := none, oneof_index := none, proto3_optional := none }] [] [] [] ]
    [] []

/-- C3: every key of the flattened schema table is a declared type's own
short name (qualification discarded), the table never holds two entries for
one name, and on a short-name collision the later-inserted schema silently
replaces the earlier one (here: the second nested `X` wins). -/
theorem claim3_short_name_keys :
    (∀ (msg : DescriptorProto) (d : Int),
      (((OpenAPIGenerator.generate_schema_recursive msg d).map Prod.fst).Nodup) ∧
      ∀ k ∈ (OpenAPIGenerator.generate_schema_recursive msg d).map Prod.fst,
        k ∈ declaredNames msg) ∧
    alookup (OpenAPIGenerator.generate_schema_recursive collideMsg 0) "X" =
      some (.mk none (.obj [("b", .item (.mk none .strT))])) := by
  refine ⟨?_, ?_⟩
  · intro msg d
    exact ⟨gsrF_keys_nodup _ msg, fun k hk => gsrF_keys_sub _ msg k hk⟩
  · rfl

/-- Witness for C3: the surviving key `X` is indeed a declared short name of
the collision example. -/
theorem claim3_short_name_keys_witness : "X" ∈ declaredNames collideMsg :=
  (claim3_short_name_keys.1 collideMsg 0).2 "X" (by decide)

/-! ## C4: field order vs. document order -/

/-- C4 (amended): within one message schema, the declared field order is
preserved exactly as the property order of the generated object schema. -/
theorem claim4_field_order (fields : List FieldDescriptorProto)
    (h : (fields.map FieldDescriptorProto.name).Nodup) :
    (objProperties (OpenAPIGenerator.generate_fields_schema fields [] [])).map Prod.fst =
      fields.map FieldDescriptorProto.name := by
  have hf := foldl_idxInsert_fresh fields (fun f : FieldDescriptorProto => f.name)
      (fun f => OpenAPIGenerator.fieldProp f) [] (by simp) h
  unfold OpenAPIGenerator.generate_fields_schema
  simp only [List.enum_nil, List.foldl_nil, objProperties]
  rw [hf]
  simp [List.map_map, Function.comp]

def userFields : List FieldDescriptorProto :=
  [ { name := "name", label := .optional, ftype := .string,
      type_name := none, oneof_index := none, proto3_optional := none },
    { name := "age", label := .optional, ftype := .int32,
      type_name := none, oneof_index := none, proto3_optional := none } ]

/-- Witness for C4's amended theorem: `User{string name; int32 age;}` keeps
the declared property order `name`, `age`. -/
theorem claim4_field_order_witness :
    (objProperties (OpenAPIGenerator.generate_fields_schema userFields [] [])).map Prod.fst =
      userFields.map FieldDescriptorProto.name :=
  claim4_field_order userFields (by decide)

/-- Single service with two distinct literal paths, used to exhibit the
dependence of the path table's order on the grouping map's enumeration
order. -/
def orderSvc : Service :=
  { name := "S"
    comments := ⟨[], [], []⟩
    methods := [ { name := "m", comments := ⟨[], ["GET /a", "GET /b"], []⟩,
                   input_proto_type := ".I", output_proto_type := ".O" } ] }

/-- C4 (counterexample to the determinism half): the path groups of a service
live in a Rust `HashMap`, whose iteration order is unspecified and re-seeded
per run; two admissible enumeration orders of the very same grouping (here: a
permutation of each other) yield differently ordered path tables, so the
document's path ordering is not a function of the descriptor set alone. -/
theorem claim4_counterexample :
    (OpenAPIGenerator.groupByPath (OpenAPIGenerator.serviceTriples orderSvc)).Perm
        ((OpenAPIGenerator.groupByPath (OpenAPIGenerator.serviceTriples orderSvc)).reverse) ∧
    (OpenAPIGenerator.buildPathTable
        (OpenAPIGenerator.groupByPath (OpenAPIGenerator.serviceTriples orderSvc)) []).map
        (fun tab => tab.map Prod.fst) ≠
      (OpenAPIGenerator.buildPathTable
        ((OpenAPIGenerator.groupByPath (OpenAPIGenerator.serviceTriples orderSvc)).reverse) []).map
        (fun tab => tab.map Prod.fst) :=
  ⟨(List.reverse_perm _).symm, by decide⟩

/-! ## C5: missing descriptor data aborts the whole run -/

theorem optionMapM_none {α β : Type} (f : α → Option β) (l : List α) (x : α)
    (hx : x ∈ l) (hf : f x = none) : optionMapM f l = none := by
  induction l with
  | nil => simp at hx
  | cons a l ih =>
    rcases List.mem_cons.mp hx with he | he
    · simp [optionMapM, ← he, hf]
    · cases ha : f a <;> simp [optionMapM, ha, ih he]

theorem optionFoldM_none {α β : Type} (f : β → α → Option β) (l : List α) (x : α)
    (hx : x ∈ l) (hf : ∀ acc, f acc x = none) :
    ∀ init, optionFoldM f init l = none := by
  induction l with
  | nil => simp at hx
  | cons a l ih =>
    intro init
    rcases List.mem_cons.mp hx with he | he
    · simp [optionFoldM, ← he, hf init]
    · cases ha : f init a <;> simp [optionFoldM, ha, ih he]

namespace OpenAPIGenerator

theorem generate_service_none (locs : List Location) (sIdx : Int)
    (svc : ServiceDescriptorProto)
    (h : location locs [6, sIdx] = none ∨
      ∃ mp ∈ svc.method.enum,
        mp.2.name = none ∨ mp.2.input_type = none ∨ mp.2.output_type = none ∨
        location locs [6, sIdx, 2, (mp.1 : Int)] = none) :
    generate_service locs sIdx svc = none := by
  unfold generate_service
  rcases h with h | ⟨mp, hmp, hbad⟩
  · rw [h]
    rfl
  · cases hs : location locs [6, sIdx] with
    | none => rfl
    | some sloc =>
      have hmapm : optionMapM (methodOf locs sIdx) svc.method.enum = none := by
        refine optionMapM_none _ _ mp hmp ?_
        unfold methodOf
        rcases hbad with hb | hb | hb | hb
        · cases hl : location locs [6, sIdx, 2, (mp.1 : Int)] <;> simp [hl, hb]
        · cases hl : location locs [6, sIdx, 2, (mp.1 : Int)] <;> simp [hl, hb]
        · cases hl : location locs [6, sIdx, 2, (mp.1 : Int)] <;>
            cases hn : mp.2.name <;> simp [hl, hn, hb]
        · simp [hb]
      simp [hs, hmapm]

theorem processFile_none (f : FileDescriptorProto)
    (h : ∃ sp ∈ f.service.enum,
        location (fileLocations f) [6, (sp.1 : Int)] = none ∨
        ∃ mp ∈ sp.2.method.enum,
          mp.2.name = none ∨ mp.2.input_type = none ∨ mp.2.output_type = none ∨
          location (fileLocations f) [6, (sp.1 : Int), 2, (mp.1 : Int)] = none) :
    ∀ acc, processFile acc f = none := by
  intro acc
  obtain ⟨sp, hsp, hbad⟩ := h
  unfold processFile
  cases hsi : f.source_code_info with
  | none => rfl
  | some si =>
    have hlocs : si.location = fileLocations f := by
      simp [fileLocations, hsi]
    have hfold : optionFoldM (serviceStep si.location) acc.paths f.service.enum = none := by
      refine optionFoldM_none _ _ sp hsp ?_ acc.paths
      intro p
      have hsvc : generate_service si.location (sp.1 : Int) sp.2 = none := by
        rw [hlocs]
        exact generate_service_none _ _ _ hbad
      unfold serviceStep
      simp [hsvc]
    simp [hsi, hfold]

end OpenAPIGenerator

/-- C5: a descriptor set in which some method lacks a name, an input type, an
output type, or whose service/method structural path has no entry in the
comment-location index makes the whole generation run fail (the source
panics on the `unwrap`): no document, not even a partial one, is produced. -/
theorem claim5_fatal_missing_data (files : List FileDescriptorProto)
    (h : ∃ f ∈ files, ∃ sp ∈ f.service.enum,
        OpenAPIGenerator.location (OpenAPIGenerator.fileLocations f)
            [6, (sp.1 : Int)] = none ∨
        ∃ mp ∈ sp.2.method.enum,
          mp.2.name = none ∨ mp.2.input_type = none ∨ mp.2.output_type = none ∨
          OpenAPIGenerator.location (OpenAPIGenerator.fileLocations f)
              [6, (sp.1 : Int), 2, (mp.1 : Int)] = none) :
    OpenAPIGenerator.generate files = none := by
  obtain ⟨f, hf, hbad⟩ := h
  unfold OpenAPIGenerator.generate
  have hfold : optionFoldM OpenAPIGenerator.processFile ⟨[], []⟩ files = none :=
    optionFoldM_none _ _ f hf (OpenAPIGenerator.processFile_none f hbad) _
  simp [hfold]

/-- File whose only method is missing its name (all comment locations
present). -/
def missingNameFile : FileDescriptorProto :=
  { message_type := []
    enum_type := []
    service := [⟨"S", [⟨none, some ".pkg.I", some ".pkg.O"⟩]⟩]
    source_code_info := some ⟨[⟨[6, 0], some "", none, []⟩,
                              ⟨[6, 0, 2, 0], some "GET /x", none, []⟩]⟩ }

/-- Witness for C5: the concrete file with a nameless method generates
nothing. -/
theorem claim5_fatal_missing_data_witness :
    OpenAPIGenerator.generate [missingNameFile] = none :=
  claim5_fatal_missing_data [missingNameFile] (by decide)

/-! ## C6: lines without a verb or a path are not routes -/

/-- C6: a comment line with no GET/PUT/POST/DELETE token anchored after
optional leading whitespace, or with no `/segment` path expression, parses to
the non-error "not a route" result and contributes nothing to route
extraction. -/
theorem claim6_non_route_lines (s : String)
    (h : (∀ v ∈ httpVerbs, v.data.isPrefixOf (s.data.dropWhile isSpaceChar) = false) ∨
         pathSearch s.data = none) :
    OpenAPIPathInfo.tryFrom s = .error () ∧ OpenAPIGenerator.extractRoutes [s] = [] := by
  have herr : OpenAPIPathInfo.tryFrom s = .error () := by
    unfold OpenAPIPathInfo.tryFrom
    rcases h with h | h
    · have hv : matchVerb s.data = none := by
        unfold matchVerb
        rw [List.find?_eq_none]
        intro v hv
        simp [h v hv]
      rw [hv]
    · cases hm : matchVerb s.data with
      | none => rfl
      | some v => simp [hm, h]
  refine ⟨herr, ?_⟩
  simp [OpenAPIGenerator.extractRoutes, herr, Except.toOption]

/-- Witness for C6: a plain prose comment line is silently skipped. -/
theorem claim6_non_route_lines_witness :
    OpenAPIPathInfo.tryFrom "just a note" = .error () ∧
      OpenAPIGenerator.extractRoutes ["just a note"] = [] :=
  claim6_non_route_lines "just a note" (Or.inl (by decide))

/-! ## C7: parameter extraction, placeholder rewriting, schema types -/

/-- `pat` occurs contiguously inside `s`. -/
def containsSub (pat s : List Char) : Prop := ∃ l r, s = l ++ pat ++ r

theorem containsSub_token {ts : List ((String × String) ⊕ Char)} {n t : String}
    (hmem : Sum.inl (n, t) ∈ ts) :
    containsSub ('{' :: (n.data ++ ['}'])) (replaceParamsTok ts) := by
  induction ts with
  | nil => simp at hmem
  | cons tok ts ih =>
    rcases List.mem_cons.mp hmem with he | he
    · refine ⟨[], replaceParamsTok ts, ?_⟩
      rw [← he]
      simp [replaceParamsTok]
    · obtain ⟨l, r, hr⟩ := ih he
      cases tok with
      | inl p =>
        refine ⟨'{' :: (p.1.data ++ ['}']) ++ l, r, ?_⟩
        simp [replaceParamsTok, hr]
      | inr c =>
        refine ⟨c :: l, r, ?_⟩
        simp [replaceParamsTok, hr]

theorem applyTriple_parameters (pi : PathItem) (t : OpenAPIGenerator.RouteTriple) :
    (OpenAPIGenerator.applyTriple pi t).parameters = pi.parameters := by
  unfold OpenAPIGenerator.applyTriple
  split <;> rfl

theorem foldl_applyTriple_parameters (g : List OpenAPIGenerator.RouteTriple) :
    ∀ pi : PathItem,
      (g.foldl OpenAPIGenerator.applyTriple pi).parameters = pi.parameters := by
  induction g with
  | nil => intro pi; rfl
  | cons t g ih =>
    intro pi
    simp only [List.foldl_cons]
    rw [ih, applyTriple_parameters]

/-- C7: for a successfully parsed route line, the parameter map is collected
from every `{name:type}` placeholder anywhere on the line; every placeholder
of the path reappears as `{name}` (type stripped) in the emitted OpenAPI
path; the path-level parameter schema is integer exactly for the token
`"int"` and string for every other token, and `generate_path` takes the
path-level parameters from the group's first descriptor through that
mapping. -/
theorem claim7_parameters (s : String) (info : OpenAPIPathInfo)
    (h : OpenAPIPathInfo.tryFrom s = .ok info) :
    info.parameters = buildParamMap (scanParams s.data) ∧
    (∀ p ∈ scanParams info.path.data,
        containsSub ('{' :: (p.1.data ++ ['}'])) (path_to_openapi_path info.path).data) ∧
    (∀ t : String,
        (OpenAPIGenerator.paramTypeSchema t = SchemaKind.intT [] ↔ t = "int") ∧
        (t ≠ "int" → OpenAPIGenerator.paramTypeSchema t = SchemaKind.strT)) ∧
    ∀ (first : OpenAPIGenerator.RouteTriple) (rest : List OpenAPIGenerator.RouteTriple)
      (pi : PathItem),
      OpenAPIGenerator.generate_path (first :: rest) = some pi →
      pi.parameters = first.2.2.parameters.map OpenAPIGenerator.mkPathParameter := by
  refine ⟨?_, ?_, ?_, ?_⟩
  · unfold OpenAPIPathInfo.tryFrom at h
    cases hm : matchVerb s.data with
    | none => rw [hm] at h; cases h
    | some v =>
      rw [hm] at h
      cases hp : pathSearch s.data with
      | none => rw [hp] at h; cases h
      | some path =>
        rw [hp] at h
        cases h
        rfl
  · intro p hp
    have hmem : Sum.inl p ∈ scanTokens info.path.data := by
      unfold scanParams at hp
      rw [List.mem_filterMap] at hp
      obtain ⟨tok, htok, hres⟩ := hp
      cases tok with
      | inl q =>
        simp at hres
        exact hres ▸ htok
      | inr c => simp at hres
    unfold path_to_openapi_path
    exact containsSub_token (n := p.1) (t := p.2) (by
      obtain ⟨a, b⟩ := p
      exact hmem)
  · intro t
    constructor
    · constructor
      · intro hEq
        unfold OpenAPIGenerator.paramTypeSchema at hEq
        split at hEq
        · exact SchemaKind.noConfusion hEq
        · rfl
        · exact SchemaKind.noConfusion hEq
      · intro ht
        rw [ht]
        rfl
    · intro ht
      unfold OpenAPIGenerator.paramTypeSchema
      split
      · rfl
      · exact absurd rfl ht
      · rfl
  · intro first rest pi hgp
    unfold OpenAPIGenerator.generate_path at hgp
    simp only [Option.some.injEq] at hgp
    rw [← hgp]
    rw [foldl_applyTriple_parameters]

/-- Witness for C7: the line `GET /u/{id:int}` yields the parameter map
`id → int` and its emitted path contains the stripped placeholder. -/
theorem claim7_parameters_witness :
    ([("id", "int")] : List (String × String)) =
        buildParamMap (scanParams ("GET /u/{id:int}" : String).data) ∧
    containsSub ('{' :: (("id" : String).data ++ ['}']))
      (path_to_openapi_path "/u/{id:int}").data := by
  have h := claim7_parameters "GET /u/{id:int}"
      { path := "/u/{id:int}", method := "GET", parameters := [("id", "int")],
        include_body := true, tags := [] } (by rfl)
  exact ⟨h.1, h.2.1 ("id", "int") (by decide)⟩

/-! ## C8: the shape of each built operation -/

/-- C8: for every route descriptor in a group, the built operation has a
request body iff the method is not GET and the body flag is set (the body
being an application/json reference to the input type's schema by short
name), exactly one response, under status 200, referencing the output type's
schema by short name with the description
`A response containing {OutputTypeName}`, and the descriptor's tags
verbatim. -/
theorem claim8_operation_shape (input_type output_type : String)
    (pd : OpenAPIPathInfo) :
    ((OpenAPIGenerator.buildOperation input_type output_type pd).request_body.isSome ↔
        (pd.method ≠ "GET" ∧ pd.include_body = true)) ∧
    (OpenAPIGenerator.buildOperation input_type output_type pd).request_body =
      (if pd.method ≠ "GET" ∧ pd.include_body = true then
        some ⟨[("application/json", refTarget (shortName input_type))]⟩
      else none) ∧
    (OpenAPIGenerator.buildOperation input_type output_type pd).responses =
      [(200, ⟨"A response containing " ++ shortName output_type,
              [("application/json", refTarget (shortName output_type))]⟩)] ∧
    (OpenAPIGenerator.buildOperation input_type output_type pd).tags = pd.tags := by
  refine ⟨?_, rfl, rfl, rfl⟩
  unfold OpenAPIGenerator.buildOperation
  by_cases h : pd.method ≠ "GET" ∧ pd.include_body = true
  · simp [h]
  · simp [h]

/-! ## C9: oneof groups become discriminated unions -/

theorem alookup_eq_none_of_not_mem_keys {α β : Type} [DecidableEq α]
    {m : List (α × β)} {k : α} (h : k ∉ m.map Prod.fst) : alookup m k = none := by
  rw [alookup_eq_none_iff]
  intro e he hk
  exact h (hk ▸ List.mem_map_of_mem Prod.fst he)

namespace OpenAPIGenerator

theorem oneofStep_lookup_ne (oneof_fields : List (Int × FieldDescriptorProto))
    (acc : List (String × SchemaOr)) (od : Nat × OneofDescriptorProto)
    (key : String) (h : key ≠ od.2.name) :
    alookup (oneofStep oneof_fields acc od) key = alookup acc key := by
  unfold oneofStep
  split
  · rfl
  · exact alookup_idxInsert_ne _ _ _ _ h

theorem oneof_fold_lookup_ne (oneof_fields : List (Int × FieldDescriptorProto))
    (l : List (Nat × OneofDescriptorProto)) (key : String)
    (hne : ∀ x ∈ l, x.2.name ≠ key) :
    ∀ acc, alookup (l.foldl (oneofStep oneof_fields) acc) key = alookup acc key := by
  induction l with
  | nil => intro acc; rfl
  | cons x l ih =>
    intro acc
    simp only [List.foldl_cons]
    rw [ih (fun y hy => hne y (by simp [hy]))]
    exact oneofStep_lookup_ne _ _ _ _ (fun he => hne x (by simp) he.symm)

theorem mem_keys_oneofStep {oneof_fields : List (Int × FieldDescriptorProto)}
    {acc : List (String × SchemaOr)} {od : Nat × OneofDescriptorProto} {k : String}
    (h : k ∈ (oneofStep oneof_fields acc od).map Prod.fst) :
    k = od.2.name ∨ k ∈ acc.map Prod.fst := by
  unfold oneofStep at h
  split at h
  · exact Or.inr h
  · exact mem_keys_idxInsert h

theorem oneof_fold_lookup_main (oneof_fields : List (Int × FieldDescriptorProto))
    (decl : List OneofDescriptorProto) :
    ∀ (k : Nat) (acc : List (String × SchemaOr)) (i : Nat) (hi : i < decl.length),
      ((decl.map (·.name)).Nodup) →
      ((decl.get ⟨i, hi⟩).name ∉ acc.map Prod.fst) →
      alookup ((decl.enumFrom k).foldl (oneofStep oneof_fields) acc)
          (decl.get ⟨i, hi⟩).name =
        match multiGet oneof_fields ((k + i : Nat) : Int) with
        | [] => none
        | ms => some (.item (oneOfSchemaOf ms)) := by
  induction decl with
  | nil => intro k acc i hi; simp at hi
  | cons od rest ih =>
    intro k acc i hi hnd hacc
    simp only [List.map_cons, List.nodup_cons] at hnd
    obtain ⟨hhead, hrestnd⟩ := hnd
    simp only [List.enumFrom, List.foldl_cons]
    cases i with
    | zero =>
      simp only [List.get] at hacc ⊢
      have hrestne : ∀ x ∈ rest.enumFrom (k + 1), x.2.name ≠ od.name := by
        intro x hx he
        have h3 := List.mem_enumFrom hx
        have hx2 : x.2 ∈ rest := by
          rw [h3.2.2]
          exact List.getElem_mem _
        exact hhead (he ▸ List.mem_map_of_mem _ hx2)
      rw [oneof_fold_lookup_ne _ _ _ hrestne]
      unfold oneofStep
      simp only [Nat.add_zero]
      rcases hmg : multiGet oneof_fields (k : Int) with _ | ⟨f, ms⟩
      · simp only [hmg]
        exact alookup_eq_none_of_not_mem_keys hacc
      · simp only [hmg]
        exact alookup_idxInsert_self _ _ _
    | succ j =>
      have hlt : j < rest.length := Nat.lt_of_succ_lt_succ hi
      have hget : (od :: rest).get ⟨j + 1, hi⟩ = rest.get ⟨j, hlt⟩ := rfl
      rw [hget] at hacc ⊢
      have hmemname : (rest.get ⟨j, hlt⟩).name ∈ rest.map (·.name) :=
        List.mem_map_of_mem _ (rest.get_mem _ _)
      have hne0 : (rest.get ⟨j, hlt⟩).name ≠ od.name := by
        intro he
        exact hhead (he ▸ hmemname)
      have hacc' : (rest.get ⟨j, hlt⟩).name ∉
          (oneofStep oneof_fields acc (k, od)).map Prod.fst := by
        intro hc
        rcases mem_keys_oneofStep hc with hc | hc
        · exact hne0 hc
        · exact hacc hc
      have := ih (k + 1) (oneofStep oneof_fields acc (k, od)) j hlt hrestnd hacc'
      rw [this]
      have harith : ((k + 1 + j : Nat) : Int) = ((k + (j + 1) : Nat) : Int) := by
        omega
      rw [harith]

end OpenAPIGenerator

theorem multiGet_oneofPairs (msg : DescriptorProto) (i : Int) :
    multiGet (oneofPairs msg) i =
      msg.field.filter
        (fun f => !(f.proto3_optional.getD false) && f.oneof_index == some i) := by
  unfold multiGet oneofPairs
  induction msg.field with
  | nil => rfl
  | cons f fs ih =>
    by_cases hp : f.proto3_optional.getD false
    · simp only [List.filterMap_cons, hp, if_pos rfl, List.filter_cons]
      simp [hp, ih]
    · cases ho : f.oneof_index with
      | none =>
        simp only [List.filterMap_cons, if_neg hp]
        simp [ho, hp, List.filter_cons, ih]
      | some jj =>
        by_cases hij : jj = i
        · simp only [List.filterMap_cons, if_neg hp]
          simp [ho, hp, hij, List.filter_cons, ih]
        · simp only [List.filterMap_cons, if_neg hp]
          simp [ho, hp, hij, List.filter_cons, ih]

/-- C9: in a message's object schema, every oneof group with at least one
member field (a non-proto3-optional field carrying the group's index)
appears, under the group's own name, as a `oneOf` schema with exactly one
alternative per member field — each alternative a single-property object
named after the member — while a group with no member fields contributes no
property at all. -/
theorem claim9_oneof_unions (msg : DescriptorProto)
    (hnd : ((plainFields msg).map FieldDescriptorProto.name ++
            msg.oneof_decl.map OneofDescriptorProto.name).Nodup) :
    ∀ (i : Nat) (hi : i < msg.oneof_decl.length),
      (multiGet (oneofPairs msg) (i : Int) =
        msg.field.filter
          (fun f => !(f.proto3_optional.getD false) && f.oneof_index == some (i : Int))) ∧
      (multiGet (oneofPairs msg) (i : Int) ≠ [] →
        alookup (objProperties (OpenAPIGenerator.msgSchema msg))
            (msg.oneof_decl.get ⟨i, hi⟩).name =
          some (.item (OpenAPIGenerator.oneOfSchemaOf (multiGet (oneofPairs msg) (i : Int))))) ∧
      (multiGet (oneofPairs msg) (i : Int) = [] →
        alookup (objProperties (OpenAPIGenerator.msgSchema msg))
            (msg.oneof_decl.get ⟨i, hi⟩).name = none) := by
  intro i hi
  rw [List.nodup_append] at hnd
  obtain ⟨hplain, honeof, hdisj⟩ := hnd
  have hname_mem : (msg.oneof_decl.get ⟨i, hi⟩).name ∈
      msg.oneof_decl.map OneofDescriptorProto.name :=
    List.mem_map_of_mem _ (msg.oneof_decl.get_mem _ _)
  have hprops1 : (msg.oneof_decl.get ⟨i, hi⟩).name ∉
      ((plainFields msg).foldl
        (fun acc f => idxInsert acc f.name (OpenAPIGenerator.fieldProp f)) []).map Prod.fst := by
    intro hc
    rcases mem_keys_foldl_insert hc with hc | hc
    · simp at hc
    · exact hdisj hc hname_mem
  have hmain := OpenAPIGenerator.oneof_fold_lookup_main (oneofPairs msg) msg.oneof_decl 0
      ((plainFields msg).foldl
        (fun acc f => idxInsert acc f.name (OpenAPIGenerator.fieldProp f)) [])
      i hi honeof hprops1
  have hprops : objProperties (OpenAPIGenerator.msgSchema msg) =
      (msg.oneof_decl.enumFrom 0).foldl (OpenAPIGenerator.oneofStep (oneofPairs msg))
        ((plainFields msg).foldl
          (fun acc f => idxInsert acc f.name (OpenAPIGenerator.fieldProp f)) []) := rfl
  refine ⟨multiGet_oneofPairs msg (i : Int), ?_, ?_⟩
  · intro hne
    rcases hmg : multiGet (oneofPairs msg) ((i : Nat) : Int) with _ | ⟨f, ms⟩
    · exact absurd hmg hne
    · rw [hprops, hmain]
      have h0 : ((0 + i : Nat) : Int) = ((i : Nat) : Int) := by omega
      rw [h0, hmg]
  · intro he
    rw [hprops, hmain]
    have h0 : ((0 + i : Nat) : Int) = ((i : Nat) : Int) := by omega
    rw [h0, he]

/-- Message with a two-member oneof group (`payload`) and a memberless
group (`unused`). -/
def oneofMsg : DescriptorProto :=
  .mk "Evt"
    [ { name := "a", label := .optional, ftype := .string,
        type_name := none, oneof_index := some 0, proto3_optional := none },
      { name := "b", label := .optional, ftype := .int32,
        type_name := none, oneof_index := some 0, proto3_optional := none } ]
    [] [] [⟨"payload"⟩, ⟨"unused"⟩]

/-- Witness for C9: the two-member group `payload` appears as its `oneOf`
union in the message's object schema. -/
theorem claim9_oneof_unions_witness :
    alookup (objProperties (OpenAPIGenerator.msgSchema oneofMsg))
        ((oneofMsg.oneof_decl.get ⟨0, by decide⟩).name) =
      some (.item (OpenAPIGenerator.oneOfSchemaOf
        (multiGet (oneofPairs oneofMsg) ((0 : Nat) : Int)))) :=
  ((claim9_oneof_unions oneofMsg (by decide)) 0 (by decide)).2.1 (by decide)

/-! ## C10: duplicate parameter names, last placeholder wins -/

theorem foldl_idxInsert_lastVal {α β : Type} [DecidableEq α] (l : List (α × β)) :
    ∀ (acc : List (α × β)) (k : α),
      alookup (l.foldl (fun a p => idxInsert a p.1 p.2) acc) k =
        match (l.filter (fun p => p.1 = k)).getLast? with
        | some p => some p.2
        | none => alookup acc k := by
  induction l with
  | nil => intro acc k; rfl
  | cons p l ih =>
    intro acc k
    simp only [List.foldl_cons]
    rw [ih (idxInsert acc p.1 p.2) k]
    by_cases hk : p.1 = k
    · rw [List.filter_cons, if_pos (by simp [hk])]
      rcases hl : (l.filter (fun q => q.1 = k)).getLast? with _ | q
      · have hnil : l.filter (fun q => q.1 = k) = [] := by
          cases hfl : l.filter (fun q => q.1 = k) with
          | nil => rfl
          | cons x xs =>
            rw [hfl, List.getLast?_cons] at hl
            cases hl
        rw [hl, hnil, ← hk]
        simp [alookup_idxInsert_self]
      · have hcons : ((p :: l.filter (fun q => q.1 = k)).getLast?) = some q := by
          rw [List.getLast?_cons, hl]; rfl
        rw [hl, hcons]
    · rw [List.filter_cons, if_neg (by simp [hk])]
      rcases hl : (l.filter (fun q => q.1 = k)).getLast? with _ | q
      · rw [hl]
        exact alookup_idxInsert_ne acc p.1 k p.2 (fun he => hk he.symm)
      · rw [hl]

/-- C10: when a parsed route line contains several `{name:type}` placeholders
with the same name, the route descriptor's parameter map holds exactly one
entry for that name, whose type token is the last (rightmost) placeholder's;
earlier occurrences are silently discarded. -/
theorem claim10_duplicate_params (s : String) (info : OpenAPIPathInfo)
    (h : OpenAPIPathInfo.tryFrom s = .ok info) :
    ((info.parameters.map Prod.fst).Nodup) ∧
    ∀ n : String,
      alookup info.parameters n =
        match ((scanParams s.data).filter (fun p => p.1 = n)).getLast? with
        | some p => some p.2
        | none => none := by
  have hparams : info.parameters = buildParamMap (scanParams s.data) := by
    unfold OpenAPIPathInfo.tryFrom at h
    cases hm : matchVerb s.data with
    | none => rw [hm] at h; cases h
    | some v =>
      rw [hm] at h
      cases hp : pathSearch s.data with
      | none => rw [hp] at h; cases h
      | some path =>
        rw [hp] at h
        cases h
        rfl
  constructor
  · rw [hparams]
    exact nodup_keys_foldl_insert Prod.fst Prod.snd (scanParams s.data) [] (by simp)
  · intro n
    rw [hparams]
    unfold buildParamMap
    rw [foldl_idxInsert_lastVal (scanParams s.data) [] n]
    rcases hg : ((scanParams s.data).filter (fun p => p.1 = n)).getLast? with _ | q
    · rw [hg]
      rfl
    · rw [hg]

/-- Witness for C10: on `GET /a/{id:int}/{id:string}` the map holds one entry
for `id`, with the rightmost type token `string`. -/
theorem claim10_duplicate_params_witness :
    alookup (buildParamMap (scanParams ("GET /a/{id:int}/{id:string}" : String).data)) "id" =
      some "string" := by
  have h := claim10_duplicate_params "GET /a/{id:int}/{id:string}"
      { path := "/a/{id:int}/{id:string}", method := "GET",
        parameters := [("id", "string")], include_body := true, tags := [] } (by rfl)
  exact (h.2 "id").trans (by decide)

/-- Service with two routes on the same literal path, to instantiate the
per-service grouping theorem. -/
def svcW : Service :=
  { name := "S"
    comments := ⟨[], [], []⟩
    methods := [ { name := "m", comments := ⟨[], ["GET /x", "PUT /x"], []⟩,
                   input_proto_type := ".I", output_proto_type := ".O" } ] }

/-- Witness for C1's amended theorem: the (single) group of `svcW` is
non-empty and holds both of the service's triples. -/
theorem claim1_per_service_grouping_witness :
    ((OpenAPIGenerator.groupByPath (OpenAPIGenerator.serviceTriples svcW)).headD ("", [])).2 ≠ [] :=
  ((OpenAPIGenerator.claim1_per_service_grouping
      (OpenAPIGenerator.serviceTriples svcW) "/x").2.2
    ((OpenAPIGenerator.groupByPath (OpenAPIGenerator.serviceTriples svcW)).headD ("", []))
    (by decide)).2
